import Mathlib

/-!
Shallow embedding of the RAG chunking and enrichment core of the
direct-transcriber repository (files `output/chunking.py`,
`output/rag_optimizer.py`, `core/models.py`), together with theorems that
settle the frozen specification claims.

Python strings are modelled as `List Char`, Python floats as `ℚ`, Python
ints as `Nat` (all integer quantities in the core are non-negative; where
Python subtraction could go negative inside a `max`, truncated `Nat`
subtraction yields the same result, as noted at the definition site).
-/

namespace DirectTranscriber

abbrev Chars := List Char

/-- Python `str.strip()`: drop leading and trailing whitespace. -/
def stripChars (cs : Chars) : Chars :=
  ((cs.dropWhile Char.isWhitespace).reverse.dropWhile Char.isWhitespace).reverse

/-- Python `str.rstrip()`: drop trailing whitespace. -/
def rstripChars (cs : Chars) : Chars :=
  (cs.reverse.dropWhile Char.isWhitespace).reverse

/-- Python `str.lower()` (ASCII letters, which is all the core's data uses). -/
def toLowerChars (cs : Chars) : Chars := cs.map Char.toLower

/-- Python `str.split()` with no argument: split on runs of whitespace,
discarding empty pieces. -/
def splitWs : Chars → List Chars
  | [] => []
  | c :: rest =>
    if c.isWhitespace then splitWs rest
    else
      (c :: rest.takeWhile (fun d => ¬ d.isWhitespace)) ::
        splitWs (rest.dropWhile (fun d => ¬ d.isWhitespace))
termination_by cs => cs.length
decreasing_by
  · simp
  · have h := (List.dropWhile_sublist (l := rest)
      (fun d => decide ¬ d.isWhitespace = true)).length_le
    simp only [List.length_cons]
    omega

/-- Python substring containment `needle in hay`. -/
def containsSub (hay needle : Chars) : Bool :=
  (List.range (hay.length + 1)).any (fun i => needle.isPrefixOf (hay.drop i))

/-- Python `' '.join(pieces)`. -/
def joinSp (pieces : List Chars) : Chars := List.intercalate [' '] pieces

/-- Python `hay.find(needle, from)`: least index `i ≥ from` at which `needle`
occurs in `hay`, as an `Option` (Python returns `-1` for no occurrence). -/
def findFrom (hay needle : Chars) (start : Nat) : Option Nat :=
  (List.range (hay.length + 1)).find? (fun i => start ≤ i && needle.isPrefixOf (hay.drop i))

/-- Python `text.rfind(c, start, stop)`: greatest index `i` with
`start ≤ i < stop`, `i < text.length` and `text[i] = c`, as an `Option`. -/
def rfindCharIn (cs : Chars) (c : Char) (start stop : Nat) : Option Nat :=
  ((List.range (min stop cs.length)).filter
    (fun i => start ≤ i && cs.getD i ' ' = c)).getLast?

/-- Python slice `text[a:b]` (with non-negative bounds). -/
def sliceList (cs : Chars) (a b : Nat) : Chars := (cs.take b).drop a

/-- Python `pieces[-n:]`: the last at most `n` elements, in order. -/
def lastN (n : Nat) (l : List Chars) : List Chars := l.drop (l.length - n)

/-! ## Data model (`core/models.py`) -/

/-- Segment dataclass from `core/models.py`: one timestamped piece of
transcript text with a confidence score.  The Python field `end` is named
`stop` here because `end` is a Lean keyword. -/
structure Segment where
  start : ℚ
  stop : ℚ
  text : Chars
  confidence : ℚ
deriving DecidableEq, Repr, Inhabited

/-- TranscriptionMetadata from `core/models.py` (the fields the core reads;
`transcribed_at` lives outside the chunk pipeline and is not consumed by it). -/
structure TranscriptionMetadata where
  file_path : Chars
  duration : ℚ
  model : Chars
  language : Chars
deriving DecidableEq, Repr, Inhabited

/-- TranscriptionResult from `core/models.py`. -/
structure TranscriptionResult where
  text : Chars
  segments : List Segment
  metadata : TranscriptionMetadata
  language : Chars
  confidence : Option ℚ
deriving DecidableEq, Repr, Inhabited

/-- Chunk dataclass from `output/chunking.py`. -/
structure Chunk where
  text : Chars
  start_time : ℚ
  end_time : ℚ
  segment_indices : List Nat
  confidence : ℚ
  word_count : Nat
  char_count : Nat
  overlap_prev : Option Chars
  overlap_next : Option Chars
deriving DecidableEq, Repr, Inhabited

/-! ## ChunkingStrategy shared helpers (`output/chunking.py`) -/

/-- ChunkingStrategy._calculate_confidence: average of the member segment
confidences that are strictly positive; `1.0` when no member confidence is
positive; `0.0` for an empty member list. -/
def calcConfidence (segments : List Segment) : ℚ :=
  if segments = [] then 0
  else
    let confidences := (segments.filter (fun s => 0 < s.confidence)).map Segment.confidence
    if confidences = [] then 1 else confidences.sum / confidences.length

/-- List.map with the position of each element, starting at `k`. -/
def mapWithIndexFrom (f : Nat → α → β) : Nat → List α → List β
  | _, [] => []
  | i, a :: as => f i a :: mapWithIndexFrom f (i + 1) as

/-- Update applied by ChunkingStrategy._add_overlap to the chunk at
position `i`: `overlap_prev` gets the last 20 words of the previous chunk,
`overlap_next` the first 20 words of the next one. -/
def applyOverlap (chunks : List Chunk) (ow : Nat) (i : Nat) (c : Chunk) : Chunk :=
  { c with
    overlap_prev :=
      if 0 < i then some (joinSp (lastN ow (splitWs (chunks.getD (i - 1) default).text)))
      else c.overlap_prev
    overlap_next :=
      if i < chunks.length - 1 then
        some (joinSp ((splitWs (chunks.getD (i + 1) default).text).take ow))
      else c.overlap_next }

/-- ChunkingStrategy._add_overlap with `overlap_words = ow` (the Python
in-place field updates only touch the overlap fields, never the text that
later iterations read, so a positional map is a faithful model). -/
def addOverlap (ow : Nat) (chunks : List Chunk) : List Chunk :=
  if chunks.length ≤ 1 then chunks
  else mapWithIndexFrom (applyOverlap chunks ow) 0 chunks

/-! ## SemanticChunking (`output/chunking.py`) -/

/-- Topic-shift vocabulary of SemanticChunking (a Python set; only
membership-by-substring is ever used, so a list is a faithful model). -/
def topicShiftKeywords : List Chars :=
  ["however".data, "but".data, "meanwhile".data, "furthermore".data, "moreover".data,
   "additionally".data, "in contrast".data, "on the other hand".data, "similarly".data,
   "likewise".data, "therefore".data, "consequently".data, "as a result".data,
   "in conclusion".data, "to summarize".data, "finally".data, "first".data, "second".data,
   "third".data, "next".data, "then".data, "afterwards".data, "previously".data,
   "moving on".data, "turning to".data, "regarding".data, "concerning".data,
   "speaking of".data]

/-- Python `re.match(r'^\d+\.', text)`: a non-empty run of leading digits
followed immediately by a literal dot. -/
def startsDigitsDot (cs : Chars) : Bool :=
  let ds := cs.takeWhile Char.isDigit
  ds ≠ [] && (cs.drop ds.length).headD ' ' = '.'

/-- SemanticChunking._is_natural_break. -/
def isNaturalBreak (segment : Segment) (allSegments : List Segment) (index : Nat) : Bool :=
  let text := stripChars (toLowerChars segment.text)
  (topicShiftKeywords.any (fun kw => containsSub text kw)) ||
  (0 < index && 2 < segment.start - (allSegments.getD (index - 1) default).stop) ||
  (text.getLastD ' ' = '?' && text ≠ [] && index < allSegments.length - 1) ||
  (startsDigitsDot text || ("first".data.isPrefixOf text) || ("second".data.isPrefixOf text) ||
   ("third".data.isPrefixOf text) || ("finally".data.isPrefixOf text))

/-- SemanticChunking._is_sentence_end. -/
def isSentenceEnd (cs : Chars) : Bool :=
  let t := rstripChars cs
  t.getLastD ' ' ∈ ['.', '!', '?'] && t ≠ []

/-- SemanticChunking._create_chunk_from_segments (total model: the Python
code raises on an empty member list; every call site passes a non-empty one,
and the defaults below are never read there). -/
def createChunkFromSegments (segments allSegments : List Segment) : Chunk :=
  let chunkText := joinSp (segments.map (fun s => stripChars s.text))
  { text := chunkText
    start_time := (segments.headD default).start
    end_time := (segments.getLastD default).stop
    segment_indices := segments.map (fun s => List.indexOf s allSegments)
    confidence := calcConfidence segments
    word_count := (splitWs chunkText).length
    char_count := chunkText.length
    overlap_prev := none
    overlap_next := none }

/-- Main accumulation loop of SemanticChunking.chunk: walks the remaining
segments (with `i` the absolute index of the head), carrying the pending
group and its accumulated character count. -/
def semanticLoop (targetSize minSize maxSize : Nat) (all : List Segment) :
    List Segment → Nat → List Segment → Nat → List Chunk
  | [], _, current, _ =>
    if current ≠ [] then [createChunkFromSegments current all] else []
  | seg :: rest, i, current, chars =>
    let segText := stripChars seg.text
    let segChars := segText.length
    let naturalBreak := isNaturalBreak seg all i
    let wouldExceedMax := maxSize < chars + segChars
    let isGoodSize := minSize ≤ chars
    let shouldBreak :=
      (naturalBreak && isGoodSize) || wouldExceedMax ||
      (decide (targetSize ≤ chars) && isSentenceEnd segText)
    if shouldBreak ∧ current ≠ [] then
      createChunkFromSegments current all ::
        semanticLoop targetSize minSize maxSize all rest (i + 1) [seg] segChars
    else
      semanticLoop targetSize minSize maxSize all rest (i + 1) (current ++ [seg])
        (chars + segChars)

/-- SemanticChunking.chunk. -/
def semanticChunk (targetSize minSize maxSize : Nat) (r : TranscriptionResult) : List Chunk :=
  if r.segments = [] then []
  else addOverlap 20 (semanticLoop targetSize minSize maxSize r.segments r.segments 0 [] 0)

/-! ## FixedSizeChunking (`output/chunking.py`) -/

/-- Inner walk of FixedSizeChunking._find_segments_for_text over the segment
list, carrying Python's `text_pos` cursor.  A segment is kept when the first
occurrence of its stripped text at or after the cursor starts inside
`[startPos, endPos)`; the cursor advances past a found occurrence by the
raw (unstripped) text length, exactly as the Python does. -/
def findSegmentsGo (fullText : Chars) (startPos endPos : Nat) :
    List Segment → Nat → List Segment
  | [], _ => []
  | seg :: rest, textPos =>
    match findFrom fullText (stripChars seg.text) textPos with
    | some segStart =>
      (if startPos ≤ segStart ∧ segStart < endPos then [seg] else []) ++
        findSegmentsGo fullText startPos endPos rest (segStart + seg.text.length)
    | none => findSegmentsGo fullText startPos endPos rest textPos

/-- FixedSizeChunking._find_segments_for_text, including the fallback to the
first segment when nothing matched. -/
def findSegmentsForText (segments : List Segment) (startPos endPos : Nat)
    (fullText : Chars) : List Segment :=
  let r := findSegmentsGo fullText startPos endPos segments 0
  if r = [] then segments.take 1 else r

/-- Window end position used by one FixedSizeChunking iteration: the raw
`min(start + chunk_size, len)` boundary, pulled back to just past the last
period in the window when that period lies beyond `start + chunk_size // 2`
and the raw boundary is not already the end of the text. -/
def fixedEndPos (chunkSize : Nat) (text : Chars) (startPos : Nat) : Nat :=
  let endPos0 := min (startPos + chunkSize) text.length
  if endPos0 < text.length then
    match rfindCharIn text '.' startPos endPos0 with
    | some sentenceEnd =>
      if startPos + chunkSize / 2 < sentenceEnd then sentenceEnd + 1 else endPos0
    | none => endPos0
  else endPos0

/-- Next scan position of the FixedSizeChunking loop:
`max(end_pos - overlap, start_pos + 1)`.  In Python `end_pos - overlap`
may be negative; the `max` with `start_pos + 1 ≥ 1` then picks
`start_pos + 1`, and truncated `Nat` subtraction gives the same value. -/
def fixedNextStart (chunkSize overlap : Nat) (text : Chars) (startPos : Nat) : Nat :=
  max (fixedEndPos chunkSize text startPos - overlap) (startPos + 1)

/-- Chunk built by one FixedSizeChunking iteration from a non-empty matched
segment list. -/
def mkFixedChunk (segments chunkSegments : List Segment) (chunkText : Chars) : Chunk :=
  { text := chunkText
    start_time := (chunkSegments.headD default).start
    end_time := (chunkSegments.getLastD default).stop
    segment_indices := chunkSegments.map (fun s => List.indexOf s segments)
    confidence := calcConfidence chunkSegments
    word_count := (splitWs chunkText).length
    char_count := chunkText.length
    overlap_prev := none
    overlap_next := none }

/-- Scanning loop of FixedSizeChunking.chunk.  One iteration computes the
window `[startPos, endPos)`, emits a chunk when the stripped window text and
the matched segment list are both non-empty, then either stops (when the
next start has reached or passed the window end, Python's
`if start_pos >= end_pos: break`) or continues at the next start. -/
def fixedLoop (chunkSize overlap : Nat) (text : Chars) (segments : List Segment)
    (startPos : Nat) : List Chunk :=
  if _h : startPos < text.length then
    let endPos := fixedEndPos chunkSize text startPos
    let chunkText := stripChars (sliceList text startPos endPos)
    let newChunks :=
      if chunkText = [] then []
      else
        let chunkSegments := findSegmentsForText segments startPos endPos text
        if chunkSegments = [] then [] else [mkFixedChunk segments chunkSegments chunkText]
    if endPos ≤ fixedNextStart chunkSize overlap text startPos then newChunks
    else newChunks ++
      fixedLoop chunkSize overlap text segments (fixedNextStart chunkSize overlap text startPos)
  else []
termination_by text.length - startPos
decreasing_by
  have h1 : startPos + 1 ≤ fixedNextStart chunkSize overlap text startPos :=
    le_max_right _ _
  omega

/-- FixedSizeChunking.chunk. -/
def fixedChunk (chunkSize overlap : Nat) (r : TranscriptionResult) : List Chunk :=
  if r.text = [] ∨ r.segments = [] then []
  else addOverlap 20 (fixedLoop chunkSize overlap r.text r.segments 0)

/-! ## SentenceChunking (`output/chunking.py`) -/

/-- Sentence splitter of SentenceChunking._split_sentences.  The Python
regex `re.split` on a whitespace run that is preceded by `.`, `!` or `?`
and followed by an ASCII uppercase letter: the lookahead forces the greedy
`whitespace+` to consume a whole maximal run, so a split point is exactly a
maximal whitespace run whose preceding character is terminal punctuation
and whose following character is in `A`-`Z`. -/
def sentenceSplitGo (prev : Option Char) (acc : Chars) : Chars → List Chars
  | [] => [acc.reverse]
  | c :: rest =>
    if (prev = some '.' ∨ prev = some '!' ∨ prev = some '?') ∧ c.isWhitespace then
      let after := (c :: rest).dropWhile Char.isWhitespace
      if h : after ≠ [] ∧ 'A' ≤ after.headD ' ' ∧ after.headD ' ' ≤ 'Z' then
        acc.reverse :: sentenceSplitGo none [] after
      else
        sentenceSplitGo (some c) (c :: acc) rest
    else
      sentenceSplitGo (some c) (c :: acc) rest
termination_by cs => cs.length
decreasing_by
  · have hsub := (List.dropWhile_sublist (l := rest) Char.isWhitespace).length_le
    have hne : List.dropWhile Char.isWhitespace (c :: rest) =
        List.dropWhile Char.isWhitespace rest := by
      simp only [List.dropWhile]
      simp_all
    simp only [hne] at h ⊢
    simp only [List.length_cons]
    omega
  · simp
  · simp

/-- SentenceChunking._split_sentences: regex split, then strip each piece
and drop empties. -/
def splitSentences (text : Chars) : List Chars :=
  ((sentenceSplitGo none [] text).map stripChars).filter (fun s => s ≠ [])

/-- SentenceChunking._find_segments_for_sentences: keep the segments whose
lowercased text contains some accumulated sentence as a substring, falling
back to the first segment when none does. -/
def findSegmentsForSentences (segments : List Segment) (sentences : List Chars) :
    List Segment :=
  let r := segments.filter
    (fun seg => sentences.any (fun sent => containsSub (toLowerChars seg.text) (toLowerChars sent)))
  if r = [] then segments.take 1 else r

/-- Chunk built by SentenceChunking from an accumulated sentence group. -/
def mkSentenceChunk (segments : List Segment) (sentences : List Chars) : List Chunk :=
  let chunkText := joinSp sentences
  let chunkSegments := findSegmentsForSentences segments sentences
  if chunkSegments = [] then []
  else
    [{ text := chunkText
       start_time := (chunkSegments.headD default).start
       end_time := (chunkSegments.getLastD default).stop
       segment_indices := chunkSegments.map (fun s => List.indexOf s segments)
       confidence := calcConfidence chunkSegments
       word_count := (splitWs chunkText).length
       char_count := chunkText.length
       overlap_prev := none
       overlap_next := none }]

/-- Accumulation loop of SentenceChunking.chunk over the sentence list,
carrying the pending sentence group and its character count. -/
def sentenceLoop (maxSentences maxChars : Nat) (segments : List Segment) :
    List Chars → List Chars → Nat → List Chunk
  | [], currentSentences, _ =>
    if currentSentences ≠ [] then mkSentenceChunk segments currentSentences else []
  | s :: rest, currentSentences, currentChars =>
    let sentence := stripChars s
    if sentence = [] then sentenceLoop maxSentences maxChars segments rest currentSentences currentChars
    else
      let wouldExceed :=
        maxSentences ≤ currentSentences.length ∨ maxChars < currentChars + sentence.length
      if wouldExceed ∧ currentSentences ≠ [] then
        mkSentenceChunk segments currentSentences ++
          sentenceLoop maxSentences maxChars segments rest [sentence] sentence.length
      else
        sentenceLoop maxSentences maxChars segments rest (currentSentences ++ [sentence])
          (currentChars + sentence.length)

/-- SentenceChunking.chunk. -/
def sentenceChunk (maxSentences maxChars : Nat) (r : TranscriptionResult) : List Chunk :=
  if r.text = [] ∨ r.segments = [] then []
  else addOverlap 20 (sentenceLoop maxSentences maxChars r.segments (splitSentences r.text) [] 0)

/-! ## Strategy dispatch -/

/-- Closed set of chunking strategies with their constructor parameters
(FixedSizeChunking, SentenceChunking, SemanticChunking). -/
inductive Strategy where
  | fixed (chunkSize overlap : Nat)
  | sentence (maxSentences maxChars : Nat)
  | semantic (targetSize minSize maxSize : Nat)
deriving DecidableEq, Repr

/-- ChunkingStrategy.chunk dispatched over the strategy variants. -/
def Strategy.chunk : Strategy → TranscriptionResult → List Chunk
  | .fixed cs ov, r => fixedChunk cs ov r
  | .sentence ms mc, r => sentenceChunk ms mc r
  | .semantic t mn mx, r => semanticChunk t mn mx r

/-! ## Regular-expression machinery for RAGOptimizer._extract_entities

Each Python pattern is transcribed as a backtracking matcher.  A matcher
maps a position in the subject to the list of candidate end positions in
backtracking priority order (greedy alternatives first), so the head of the
list is the end position Python's `re` engine reports. -/

/-- Matcher for a word-boundary assertion `\b`: zero-width, succeeds when
exactly one of the neighbouring characters is a word character (`\w`,
i.e. alphanumeric or underscore; positions outside the subject count as
non-word). -/
def mWB (cs : Chars) (p : Nat) : List Nat :=
  let wordAt : Nat → Bool := fun i =>
    match cs.getD i ' ' , decide (i < cs.length) with
    | c, true => c.isAlphanum || c = '_'
    | _, false => false
  let before := if p = 0 then false else wordAt (p - 1)
  let after := wordAt p
  if before ≠ after then [p] else []

/-- Matcher for a single-character class. -/
def mChar (pred : Char → Bool) (cs : Chars) (p : Nat) : List Nat :=
  if h : p < cs.length then (if pred (cs.get ⟨p, h⟩) then [p + 1] else []) else []

/-- Matcher for a literal string. -/
def mStr (s : Chars) (cs : Chars) (p : Nat) : List Nat :=
  if s.isPrefixOf (cs.drop p) then [p + s.length] else []

/-- Sequencing of matchers; the list-bind preserves backtracking order. -/
def mSeq (m1 m2 : Chars → Nat → List Nat) (cs : Chars) (p : Nat) : List Nat :=
  (m1 cs p).flatMap (m2 cs)

/-- Ordered alternation of matchers. -/
def mAlt (m1 m2 : Chars → Nat → List Nat) (cs : Chars) (p : Nat) : List Nat :=
  m1 cs p ++ m2 cs p

/-- Greedy optional matcher `(...)?`: matching alternatives first, then the
empty match. -/
def mOpt (m : Chars → Nat → List Nat) (cs : Chars) (p : Nat) : List Nat :=
  m cs p ++ [p]

/-- Greedy repetition `(...)*` of a matcher whose every alternative consumes
at least one character (true of every starred group in the source patterns);
`fuel` bounds the number of iterations and is instantiated with the subject
length, which the consumption guarantee makes sufficient. -/
def mRep (m : Chars → Nat → List Nat) : Nat → Chars → Nat → List Nat
  | 0, _, p => [p]
  | fuel + 1, cs, p =>
    (((m cs p).filter (fun q => p < q)).flatMap (fun q => mRep m fuel cs q)) ++ [p]

/-- Greedy `(...)+`: one mandatory copy followed by the starred repetition. -/
def mPlus (m : Chars → Nat → List Nat) (fuel : Nat) : Chars → Nat → List Nat :=
  mSeq m (mRep m fuel)

/-- Digit class `\d`. -/
def mDigit : Chars → Nat → List Nat := mChar Char.isDigit

/-- Whitespace class `\s`. -/
def mSpace : Chars → Nat → List Nat := mChar Char.isWhitespace

/-- Alternation `(?:AM|PM|am|pm)` in source order. -/
def mAmPm : Chars → Nat → List Nat :=
  mAlt (mStr "AM".data) (mAlt (mStr "PM".data) (mAlt (mStr "am".data) (mStr "pm".data)))

/-- Time pattern `\b\d{1,2}:\d{2}(?::\d{2})?\s*(?:AM|PM|am|pm)?\b`. -/
def timePat1 (cs : Chars) : Nat → List Nat :=
  let d12 := mSeq mDigit (mOpt mDigit)
  let d2 := mSeq mDigit mDigit
  let fuel := cs.length + 1
  mSeq mWB (mSeq d12 (mSeq (mChar (· = ':')) (mSeq d2 (mSeq (mOpt (mSeq (mChar (· = ':')) d2))
    (mSeq (mRep mSpace fuel) (mSeq (mOpt mAmPm) mWB)))))) cs

/-- Time pattern `\b\d{1,2}\s*(?:AM|PM|am|pm)\b`. -/
def timePat2 (cs : Chars) : Nat → List Nat :=
  let d12 := mSeq mDigit (mOpt mDigit)
  let fuel := cs.length + 1
  mSeq mWB (mSeq d12 (mSeq (mRep mSpace fuel) (mSeq mAmPm mWB))) cs

/-- Number pattern `\b\d+(?:,\d{3})*(?:\.\d+)?\b`. -/
def numPat1 (cs : Chars) : Nat → List Nat :=
  let fuel := cs.length + 1
  let d3 := mSeq mDigit (mSeq mDigit mDigit)
  let commaGroup := mSeq (mChar (· = ',')) d3
  let decGroup := mSeq (mChar (· = '.')) (mPlus mDigit fuel)
  mSeq mWB (mSeq (mPlus mDigit fuel) (mSeq (mRep commaGroup fuel) (mSeq (mOpt decGroup) mWB))) cs

/-- Number pattern `\b\d+(?:\.\d+)?%\b`. -/
def numPat2 (cs : Chars) : Nat → List Nat :=
  let fuel := cs.length + 1
  let decGroup := mSeq (mChar (· = '.')) (mPlus mDigit fuel)
  mSeq mWB (mSeq (mPlus mDigit fuel) (mSeq (mOpt decGroup) (mSeq (mChar (· = '%')) mWB))) cs

/-- Proper-noun pattern `\b[A-Z][a-z]+(?:\s+[A-Z][a-z]+)*\b`. -/
def properPat (cs : Chars) : Nat → List Nat :=
  let fuel := cs.length + 1
  let upper := mChar (fun c => 'A' ≤ c ∧ c ≤ 'Z')
  let lower := mChar (fun c => 'a' ≤ c ∧ c ≤ 'z')
  let capWord := mSeq upper (mPlus lower fuel)
  mSeq mWB (mSeq capWord (mSeq (mRep (mSeq (mPlus mSpace fuel) capWord) fuel) mWB)) cs

/-- Python `re.finditer`: repeatedly take the backtracking engine's match at
the leftmost position where one exists, then resume just past it.  Returns
the list of `(start, end)` spans. -/
def finditerGo (pat : Chars → Nat → List Nat) (cs : Chars) :
    Nat → Nat → List (Nat × Nat)
  | 0, _ => []
  | fuel + 1, pos =>
    if pos ≤ cs.length then
      match (pat cs pos).head? with
      | some e => (pos, e) :: finditerGo pat cs fuel (max e (pos + 1))
      | none => finditerGo pat cs fuel (pos + 1)
    else []

/-- All matches of a pattern over a subject, as `(start, end)` spans. -/
def finditer (pat : Chars → Nat → List Nat) (cs : Chars) : List (Nat × Nat) :=
  finditerGo pat cs (cs.length + 1) 0

/-! ## RAGOptimizer (`output/rag_optimizer.py`) -/

/-- Entity type tags used by RAGOptimizer._extract_entities (the Python
stores the strings TIME, NUMBER and PROPER_NOUN). -/
inductive EntityType where
  | TIME
  | NUMBER
  | PROPER_NOUN
deriving DecidableEq, Repr

/-- Entity record produced by RAGOptimizer._extract_entities: matched text,
tag, and character offsets into the chunk text. -/
structure Entity where
  text : Chars
  etype : EntityType
  start : Nat
  stop : Nat
deriving DecidableEq, Repr

/-- RAGChunk dataclass from `output/rag_optimizer.py`. -/
structure RAGChunk where
  text : Chars
  start_time : ℚ
  end_time : ℚ
  duration : ℚ
  word_count : Nat
  char_count : Nat
  confidence : ℚ
  chunk_id : Chars
  keywords : List Chars
  summary : Chars
  context_before : Option Chars
  context_after : Option Chars
  entities : List Entity
  topics : List Chars
  quality_score : ℚ
deriving DecidableEq, Repr, Inhabited

/-- Spans of one pattern turned into entity records. -/
def entitiesOf (t : EntityType) (cs : Chars) (spans : List (Nat × Nat)) : List Entity :=
  spans.map (fun sp => ⟨sliceList cs sp.1 sp.2, t, sp.1, sp.2⟩)

/-- Capitalized words excluded from PROPER_NOUN matches. -/
def properNounExclusions : List Chars :=
  ["The".data, "This".data, "That".data, "And".data, "But".data, "So".data,
   "Now".data, "Then".data]

/-- RAGOptimizer._extract_entities: the two TIME patterns, the two NUMBER
patterns, then the PROPER_NOUN pattern with the common-word exclusion, in
the source's append order. -/
def extractEntities (text : Chars) : List Entity :=
  entitiesOf .TIME text (finditer timePat1 text) ++
  entitiesOf .TIME text (finditer timePat2 text) ++
  entitiesOf .NUMBER text (finditer numPat1 text) ++
  entitiesOf .NUMBER text (finditer numPat2 text) ++
  (entitiesOf .PROPER_NOUN text (finditer properPat text)).filter
    (fun e => ¬ e.text ∈ properNounExclusions)

/-- Stop-word set of RAGOptimizer._extract_keywords. -/
def stopWords : List Chars :=
  (["the", "a", "an", "and", "or", "but", "in", "on", "at", "to", "for",
    "of", "with", "by", "from", "up", "about", "into", "through", "during",
    "before", "after", "above", "below", "between", "among", "this", "that",
    "these", "those", "i", "me", "my", "myself", "we", "our", "ours",
    "ourselves", "you", "your", "yours", "yourself", "yourselves", "he",
    "him", "his", "himself", "she", "her", "hers", "herself", "it", "its",
    "itself", "they", "them", "their", "theirs", "themselves", "what",
    "which", "who", "whom", "am", "is",
    "are", "was", "were", "be", "been", "being", "have", "has", "had",
    "having", "do", "does", "did", "doing", "will", "would", "should",
    "could", "can", "may", "might", "must", "shall"] : List String).map String.data

/-- Frequency bump in an insertion-ordered association list, modelling the
Python dict `word_freq` (insertion-ordered by language guarantee). -/
def bumpFreq : List (Chars × Nat) → Chars → List (Chars × Nat)
  | [], w => [(w, 1)]
  | (k, n) :: rest, w =>
    if k = w then (k, n + 1) :: rest else (k, n) :: bumpFreq rest w

/-- Stable insertion of one entry into a count-descending list: the entry
goes after every existing entry with an equal or larger count, which is
exactly how Python's stable `sorted(..., reverse=True)` orders ties. -/
def insertByCountDesc (x : Chars × Nat) : List (Chars × Nat) → List (Chars × Nat)
  | [] => [x]
  | y :: ys => if x.2 ≤ y.2 then y :: insertByCountDesc x ys else x :: y :: ys

/-- Stable descending sort by count. -/
def sortByCountDesc (l : List (Chars × Nat)) : List (Chars × Nat) :=
  l.foldl (fun acc x => insertByCountDesc x acc) []

/-- RAGOptimizer._extract_keywords: lowercase and split on whitespace, strip
non-alphanumeric characters from each token, drop tokens of length at most 2
or in the stop-word set, count frequencies, sort descending by frequency
(stable), take the top 10, and keep those with frequency above 1. -/
def extractKeywords (text : Chars) : List Chars :=
  let words := splitWs (toLowerChars text)
  let freq := words.foldl
    (fun acc w =>
      let cleanWord := toLowerChars (w.filter Char.isAlphanum)
      if 2 < cleanWord.length ∧ ¬ cleanWord ∈ stopWords then bumpFreq acc cleanWord else acc)
    []
  (((sortByCountDesc freq).take 10).filter (fun kv => 1 < kv.2)).map Prod.fst

/-- Python `text.split('.')` (keeping empty pieces). -/
def splitOnChar (sep : Char) : Chars → List Chars
  | [] => [[]]
  | c :: rest =>
    if c = sep then [] :: splitOnChar sep rest
    else
      match splitOnChar sep rest with
      | [] => [[c]]
      | p :: ps => (c :: p) :: ps

/-- RAGOptimizer._generate_summary. -/
def generateSummary (text : Chars) : Chars :=
  let sentences := ((splitOnChar '.' text).map stripChars).filter (fun s => s ≠ [])
  if sentences = [] then
    if 100 < text.length then text.take 100 ++ "...".data else text
  else
    let summary :=
      if (sentences.headD []).length < 50 ∧ 1 < sentences.length then
        sentences.headD [] ++ ". ".data ++ sentences.getD 1 []
      else sentences.headD []
    if 200 < summary.length then summary.take 200 ++ "...".data else summary

/-- Topic keyword table of RAGOptimizer._identify_topics, in the source's
insertion order. -/
def topicKeywordTable : List (Chars × List Chars) :=
  [("technology".data, (["software", "computer", "digital", "algorithm", "data", "system",
      "program", "code", "tech", "AI", "machine learning"] : List String).map String.data),
   ("business".data, (["company", "market", "revenue", "profit", "strategy", "customer",
      "sales", "business", "corporate", "financial"] : List String).map String.data),
   ("education".data, (["learn", "teach", "student", "school", "university", "education",
      "study", "course", "knowledge", "academic"] : List String).map String.data),
   ("health".data, (["health", "medical", "doctor", "patient", "treatment", "medicine",
      "hospital", "care", "disease", "therapy"] : List String).map String.data),
   ("science".data, (["research", "study", "experiment", "theory", "analysis", "scientific",
      "hypothesis", "method", "result", "data"] : List String).map String.data),
   ("finance".data, (["money", "investment", "bank", "financial", "economic", "budget",
      "cost", "price", "funding", "capital"] : List String).map String.data)]

/-- RAGOptimizer._identify_topics: a topic is reported when any of its seed
keywords occurs as a substring of the lowercased chunk text. -/
def identifyTopics (text : Chars) : List Chars :=
  let lower := toLowerChars text
  (topicKeywordTable.filter (fun kv => kv.2.any (fun kw => containsSub lower kw))).map Prod.fst

/-- RAGOptimizer._calculate_quality_score: start from the chunk confidence,
multiply by 0.7 when word_count < 10, by 0.6 when confidence < 0.5, by 1.1
when 50 ≤ word_count ≤ 200, and cap the result at 1. -/
def calculateQualityScore (chunk : Chunk) : ℚ :=
  let s1 : ℚ := 1 * chunk.confidence
  let s2 := if chunk.word_count < 10 then s1 * (7 / 10) else s1
  let s3 := if chunk.confidence < 1 / 2 then s2 * (3 / 5) else s2
  let s4 := if 50 ≤ chunk.word_count ∧ chunk.word_count ≤ 200 then s3 * (11 / 10) else s3
  min s4 1

/-- Zero-padded three-digit index used in chunk ids (Python `{index:03d}`,
which keeps all digits when the index needs more than three). -/
def pad3 (i : Nat) : Chars :=
  let s := (Nat.toDigits 10 i)
  if s.length < 3 then List.replicate (3 - s.length) '0' ++ s else s

/-- Chunk id `{basename}_{index:03d}` built from the metadata file path. -/
def chunkIdOf (filePath : Chars) (index : Nat) : Chars :=
  (splitOnChar '/' filePath).getLastD [] ++ ('_' :: pad3 index)

/-- RAGOptimizer._enhance_chunk: builds the RAGChunk for one base chunk
(context fields start out absent; they are filled by the second pass). -/
def enhanceChunk (chunk : Chunk) (index : Nat) (r : TranscriptionResult) : RAGChunk :=
  { text := chunk.text
    start_time := chunk.start_time
    end_time := chunk.end_time
    duration := chunk.end_time - chunk.start_time
    word_count := chunk.word_count
    char_count := chunk.char_count
    confidence := chunk.confidence
    chunk_id := chunkIdOf r.metadata.file_path index
    keywords := extractKeywords chunk.text
    summary := generateSummary chunk.text
    context_before := none
    context_after := none
    entities := extractEntities chunk.text
    topics := identifyTopics chunk.text
    quality_score := calculateQualityScore chunk }

/-- Update applied by RAGOptimizer._add_context_links to the chunk at
position `i` (the Python in-place pass only writes the context fields and
only reads neighbour `text` fields, so a positional map is faithful). -/
def applyContext (chunks : List RAGChunk) (i : Nat) (c : RAGChunk) : RAGChunk :=
  { c with
    context_before :=
      if 0 < i then some (joinSp (lastN 20 (splitWs (chunks.getD (i - 1) default).text)))
      else c.context_before
    context_after :=
      if i < chunks.length - 1 then
        some (joinSp ((splitWs (chunks.getD (i + 1) default).text).take 20))
      else c.context_after }

/-- RAGOptimizer._add_context_links. -/
def addContextLinks (chunks : List RAGChunk) : List RAGChunk :=
  mapWithIndexFrom (applyContext chunks) 0 chunks

/-- RAGOptimizer.optimize with the constructor-supplied chunking strategy:
run the strategy, enhance each chunk positionally, then link contexts. -/
def optimize (strategy : Strategy) (r : TranscriptionResult) : List RAGChunk :=
  addContextLinks (mapWithIndexFrom (fun i c => enhanceChunk c i r) 0 (strategy.chunk r))

/-! ## Concrete inputs used by witnesses and counterexamples -/

/-- Metadata shared by the concrete example transcripts. -/
def exMetadata : TranscriptionMetadata :=
  ⟨"dir/file.mp3".data, 10, "base".data, "en".data⟩

/-- Segment literal helper. -/
def segOf (a b : ℚ) (t : String) (c : ℚ) : Segment := ⟨a, b, t.data, c⟩

/-- Two-segment transcript with a 5-second pause between the segments. -/
def rTwo : TranscriptionResult :=
  ⟨"We covered the basics. Now, moving on to advanced topics.".data,
   [segOf 0 5 "We covered the basics." 1, segOf 10 15 "Now, moving on to advanced topics." 1],
   exMetadata, "en".data, none⟩

/-- Transcript with empty text but a non-empty segment list. -/
def rEmptyTextSeg : TranscriptionResult :=
  ⟨[], [segOf 0 1 "hello" 1], exMetadata, "en".data, none⟩

/-- Transcript with empty text and an empty segment list. -/
def rEmptyAll : TranscriptionResult := ⟨[], [], exMetadata, "en".data, none⟩

/-- Transcript whose two segments are equal records. -/
def rDup : TranscriptionResult :=
  ⟨"but hello. but hello.".data,
   [segOf 0 1 "but hello." 1, segOf 0 1 "but hello." 1],
   exMetadata, "en".data, none⟩

/-- Transcript with non-empty text whose only segment has empty text. -/
def rEmptySegText : TranscriptionResult :=
  ⟨"x".data, [segOf 0 1 "" 1], exMetadata, "en".data, none⟩

/-- Single segment with confidence exactly 0. -/
def segZero : Segment := segOf 0 1 "hi" 0

/-- Transcript whose only segment has confidence 0. -/
def rZeroConf : TranscriptionResult :=
  ⟨"hi".data, [segZero], exMetadata, "en".data, none⟩

/-- Chunk text of the entity-extraction scenario. -/
def c1ChunkText : Chars :=
  "The meeting is at 3:00 PM with John Smith, 50% complete.".data

/-- Chunk with confidence 0.9 and word count 5, the quality-penalty scenario. -/
def qualityExampleChunk : Chunk :=
  ⟨"w".data, 0, 1, [0], 9 / 10, 5, 1, none, none⟩

/-- Well-formedness footprint of a chunk relative to the original segment
list: its index list, times and confidence all come from one non-empty
sub-list of the segments, exactly the way every chunk constructor in
`output/chunking.py` builds them. -/
def ChunkFromSegments (all : List Segment) (c : Chunk) : Prop :=
  ∃ xs, xs ≠ [] ∧ xs.Sublist all ∧
    c.segment_indices = xs.map (fun s => List.indexOf s all) ∧
    c.start_time = (xs.headD default).start ∧
    c.end_time = (xs.getLastD default).stop ∧
    c.confidence = calcConfidence xs

/-! ## General lemmas -/

theorem mapWithIndexFrom_length (f : Nat → α → β) (k : Nat) (l : List α) :
    (mapWithIndexFrom f k l).length = l.length := by
  induction l generalizing k with
  | nil => simp [mapWithIndexFrom]
  | cons a as ih => simp [mapWithIndexFrom, ih]

theorem mapWithIndexFrom_getElem? (f : Nat → α → β) (k i : Nat) (l : List α) :
    (mapWithIndexFrom f k l)[i]? = (l[i]?).map (f (k + i)) := by
  induction l generalizing k i with
  | nil => simp [mapWithIndexFrom]
  | cons a as ih =>
    cases i with
    | zero => simp [mapWithIndexFrom]
    | succ j =>
      have harith : k + 1 + j = k + (j + 1) := by omega
      simp [mapWithIndexFrom, ih (k + 1) j, harith]

theorem mem_mapWithIndexFrom {f : Nat → α → β} {k : Nat} {l : List α} {b : β} :
    b ∈ mapWithIndexFrom f k l ↔ ∃ i a, l[i]? = some a ∧ b = f (k + i) a := by
  rw [List.mem_iff_getElem?]
  constructor
  · rintro ⟨n, hn⟩
    rw [mapWithIndexFrom_getElem?] at hn
    cases hl : l[n]? with
    | none => rw [hl] at hn; simp at hn
    | some a =>
      rw [hl] at hn
      exact ⟨n, a, hl, by simpa using hn.symm⟩
  · rintro ⟨i, a, h1, h2⟩
    exact ⟨i, by rw [mapWithIndexFrom_getElem?, h1, h2]; rfl⟩

theorem getD_indexOf [DecidableEq α] {l : List α} {x : α} (h : x ∈ l) (d : α) :
    l.getD (List.indexOf x l) d = x := by
  rw [List.getD_eq_getElem l d (List.indexOf_lt_length.2 h)]
  exact List.getElem_indexOf _

theorem chain_lt_map_indexOf [DecidableEq α] :
    ∀ {l : List α}, l.Nodup → ∀ {xs : List α}, xs.Sublist l →
      List.Chain' (· < ·) (xs.map (fun s => List.indexOf s l)) := by
  intro l
  induction l with
  | nil =>
    intro _ xs h
    have hx : xs = [] := List.sublist_nil.mp h
    simp [hx]
  | cons a l ih =>
    intro hnd xs hsub
    have hal : a ∉ l := by
      intro hmem
      exact (List.nodup_cons.mp hnd).1 hmem
    have hndl : l.Nodup := (List.nodup_cons.mp hnd).2
    have hshift : ∀ {ys : List α}, ys.Sublist l →
        ys.map (fun s => List.indexOf s (a :: l)) =
          (ys.map (fun s => List.indexOf s l)).map (· + 1) := by
      intro ys hys
      rw [List.map_map]
      apply List.map_congr_left
      intro x hx
      have hxl : x ∈ l := hys.subset hx
      have hne : a ≠ x := fun he => hal (he ▸ hxl)
      simp [List.indexOf_cons_ne _ hne, Nat.succ_eq_add_one]
    cases hsub with
    | cons _ h' =>
      rw [hshift h', List.chain'_map]
      exact (ih hndl h').imp (fun hab => by omega)
    | cons₂ _ h' =>
      rename_i xs'
      have hmap : (a :: xs').map (fun s => List.indexOf s (a :: l)) =
          0 :: (xs'.map (fun s => List.indexOf s l)).map (· + 1) := by
        rw [List.map_cons, List.indexOf_cons_self, hshift h']
      rw [hmap, List.chain'_cons']
      refine ⟨?_, ?_⟩
      · intro y hy
        rcases List.head?_eq_head (l := (xs'.map (fun s => List.indexOf s l)).map (· + 1))
          (by intro hnil; rw [hnil] at hy; simp at hy) ▸ hy with h
        rcases hxs' : xs' with _ | ⟨x, rest⟩
        · rw [hxs'] at hy; simp at hy
        · rw [hxs'] at hy
          simp only [List.map_cons, List.head?_cons, Option.mem_def, Option.some.injEq] at hy
          omega
      · rw [List.chain'_map]
        exact (ih hndl h').imp (fun hab => by omega)

theorem calcConfidence_nonneg (xs : List Segment) : 0 ≤ calcConfidence xs := by
  unfold calcConfidence
  split
  · exact le_refl 0
  · dsimp only
    split
    · exact zero_le_one
    · apply div_nonneg
      · apply List.sum_nonneg
        intro x hx
        simp only [List.mem_map] at hx
        obtain ⟨s, hs, rfl⟩ := hx
        have hmem := List.of_mem_filter hs
        simp only [decide_eq_true_eq] at hmem
        exact le_of_lt hmem
      · exact_mod_cast Nat.zero_le _

theorem calculateQualityScore_bounds {c : Chunk} (h : 0 ≤ c.confidence) :
    0 ≤ calculateQualityScore c ∧ calculateQualityScore c ≤ 1 := by
  unfold calculateQualityScore
  refine ⟨le_min ?_ zero_le_one, min_le_right _ _⟩
  have h1 : 0 ≤ 1 * c.confidence := by linarith
  have h2 : (0:ℚ) ≤ 7 / 10 := by norm_num
  have h3 : (0:ℚ) ≤ 3 / 5 := by norm_num
  have h4 : (0:ℚ) ≤ 11 / 10 := by norm_num
  split <;> split <;> split <;>
    first
      | exact h1
      | exact mul_nonneg h1 h2
      | exact mul_nonneg h1 h3
      | exact mul_nonneg h1 h4
      | exact mul_nonneg (mul_nonneg h1 h2) h3
      | exact mul_nonneg (mul_nonneg h1 h2) h4
      | exact mul_nonneg (mul_nonneg h1 h3) h4
      | exact mul_nonneg (mul_nonneg (mul_nonneg h1 h2) h3) h4

theorem headD_mem {l : List α} (h : l ≠ []) (d : α) : l.headD d ∈ l := by
  cases l with
  | nil => exact absurd rfl h
  | cons a as => simp

/-! ## Chunk well-formedness of the three strategies -/

theorem createChunkFromSegments_wf {all xs : List Segment} (h1 : xs ≠ [])
    (h2 : xs.Sublist all) : ChunkFromSegments all (createChunkFromSegments xs all) :=
  ⟨xs, h1, h2, rfl, rfl, rfl, rfl⟩

theorem semanticLoop_wf (t mn mx : Nat) (all : List Segment) :
    ∀ (rest : List Segment) (i : Nat) (current : List Segment) (chars : Nat)
      (pre : List Segment), pre ++ rest = all → current.Sublist pre →
      ∀ c ∈ semanticLoop t mn mx all rest i current chars, ChunkFromSegments all c := by
  intro rest
  induction rest with
  | nil =>
    intro i current chars pre hpre hcur c hc
    simp only [semanticLoop] at hc
    split at hc
    · rcases List.mem_singleton.mp hc with rfl
      have hpre' : pre = all := by simpa using hpre
      exact createChunkFromSegments_wf (by assumption) (hpre' ▸ hcur)
    · simp at hc
  | cons seg rest' ih =>
    intro i current chars pre hpre hcur c hc
    simp only [semanticLoop] at hc
    have hpre' : (pre ++ [seg]) ++ rest' = all := by
      rw [← hpre]; simp
    have hpresub : pre.Sublist all := by
      rw [← hpre]; exact List.sublist_append_left _ _
    split at hc
    · rcases List.mem_cons.mp hc with rfl | hc'
      · next hcond =>
        exact createChunkFromSegments_wf hcond.2 (hcur.trans hpresub)
      · exact ih (i + 1) [seg] _ (pre ++ [seg]) hpre'
          (List.sublist_append_right pre [seg]) c hc'
    · exact ih (i + 1) (current ++ [seg]) _ (pre ++ [seg]) hpre'
        (hcur.append (List.Sublist.refl [seg])) c hc

theorem findSegmentsGo_sublist (fullText : Chars) (a b : Nat) :
    ∀ (segs : List Segment) (textPos : Nat),
      (findSegmentsGo fullText a b segs textPos).Sublist segs := by
  intro segs
  induction segs with
  | nil => intro _; simp [findSegmentsGo]
  | cons seg rest ih =>
    intro textPos
    simp only [findSegmentsGo]
    split
    · split
      · simpa using (ih _).cons₂ seg
      · simpa using (ih _).cons seg
    · exact (ih _).cons seg

theorem findSegmentsForText_sublist (segs : List Segment) (a b : Nat) (ft : Chars) :
    (findSegmentsForText segs a b ft).Sublist segs := by
  unfold findSegmentsForText
  dsimp only
  split
  · exact List.take_sublist 1 segs
  · exact findSegmentsGo_sublist ft a b segs 0

theorem mkFixedChunk_wf {segments chunkSegments : List Segment} {chunkText : Chars}
    (h1 : chunkSegments ≠ []) (h2 : chunkSegments.Sublist segments) :
    ChunkFromSegments segments (mkFixedChunk segments chunkSegments chunkText) :=
  ⟨chunkSegments, h1, h2, rfl, rfl, rfl, rfl⟩

theorem fixedLoop_wf (chunkSize overlap : Nat) (text : Chars) (segments : List Segment) :
    ∀ (startPos : Nat) (c : Chunk), c ∈ fixedLoop chunkSize overlap text segments startPos →
      ChunkFromSegments segments c := by
  suffices H : ∀ (k startPos : Nat), text.length - startPos ≤ k →
      ∀ c ∈ fixedLoop chunkSize overlap text segments startPos,
        ChunkFromSegments segments c from
    fun startPos c hc => H (text.length - startPos) startPos le_rfl c hc
  intro k
  induction k with
  | zero =>
    intro startPos hk c hc
    rw [fixedLoop] at hc
    rw [dif_neg (by omega)] at hc
    simp at hc
  | succ k ih =>
    intro startPos hk c hc
    rw [fixedLoop] at hc
    by_cases hlt : startPos < text.length
    · rw [dif_pos hlt] at hc
      dsimp only at hc
      have hnew : ∀ c', c' ∈
          (if stripChars (sliceList text startPos (fixedEndPos chunkSize text startPos)) = []
           then ([] : List Chunk)
           else
             if findSegmentsForText segments startPos
                 (fixedEndPos chunkSize text startPos) text = [] then []
             else [mkFixedChunk segments
               (findSegmentsForText segments startPos (fixedEndPos chunkSize text startPos) text)
               (stripChars (sliceList text startPos (fixedEndPos chunkSize text startPos)))]) →
          ChunkFromSegments segments c' := by
        intro c' hc'
        split at hc'
        · simp at hc'
        · split at hc'
          · simp at hc'
          · next hfsne =>
            rcases List.mem_singleton.mp hc' with rfl
            exact mkFixedChunk_wf hfsne (findSegmentsForText_sublist _ _ _ _)
      split at hc
      · exact hnew c hc
      · rcases List.mem_append.mp hc with hc' | hc'
        · exact hnew c hc'
        · have hadv : startPos + 1 ≤ fixedNextStart chunkSize overlap text startPos :=
            Nat.le_max_right _ _
          exact ih (fixedNextStart chunkSize overlap text startPos) (by omega) c hc'
    · rw [dif_neg hlt] at hc
      simp at hc

theorem findSegmentsForSentences_sublist (segments : List Segment) (sentences : List Chars) :
    (findSegmentsForSentences segments sentences).Sublist segments := by
  unfold findSegmentsForSentences
  dsimp only
  split
  · exact List.take_sublist 1 segments
  · exact List.filter_sublist segments

theorem mkSentenceChunk_wf (segments : List Segment) (sentences : List Chars) :
    ∀ c ∈ mkSentenceChunk segments sentences, ChunkFromSegments segments c := by
  intro c hc
  unfold mkSentenceChunk at hc
  dsimp only at hc
  split at hc
  · simp at hc
  · next hne =>
    rcases List.mem_singleton.mp hc with rfl
    exact ⟨findSegmentsForSentences segments sentences, hne,
      findSegmentsForSentences_sublist segments sentences, rfl, rfl, rfl, rfl⟩

theorem sentenceLoop_wf (ms mc : Nat) (segments : List Segment) :
    ∀ (sentences : List Chars) (current : List Chars) (chars : Nat),
      ∀ c ∈ sentenceLoop ms mc segments sentences current chars,
        ChunkFromSegments segments c := by
  intro sentences
  induction sentences with
  | nil =>
    intro current chars c hc
    simp only [sentenceLoop] at hc
    split at hc
    · exact mkSentenceChunk_wf segments current c hc
    · simp at hc
  | cons s rest ih =>
    intro current chars c hc
    simp only [sentenceLoop] at hc
    split at hc
    · exact ih current chars c hc
    · split at hc
      · rcases List.mem_append.mp hc with hc' | hc'
        · exact mkSentenceChunk_wf segments current c hc'
        · exact ih _ _ c hc'
      · exact ih _ _ c hc

theorem addOverlap_core (ow : Nat) (l : List Chunk) :
    ∀ c' ∈ addOverlap ow l, ∃ c ∈ l,
      c'.segment_indices = c.segment_indices ∧ c'.start_time = c.start_time ∧
      c'.end_time = c.end_time ∧ c'.confidence = c.confidence := by
  intro c' hc'
  unfold addOverlap at hc'
  split at hc'
  · exact ⟨c', hc', rfl, rfl, rfl, rfl⟩
  · obtain ⟨i, a, hget, rfl⟩ := mem_mapWithIndexFrom.1 hc'
    exact ⟨a, List.getElem?_mem hget, rfl, rfl, rfl, rfl⟩

theorem strategy_chunk_wf (strat : Strategy) (r : TranscriptionResult) :
    ∀ c ∈ strat.chunk r, ChunkFromSegments r.segments c := by
  intro c hc
  have main : ∀ l : List Chunk,
      (∀ c₀ ∈ l, ChunkFromSegments r.segments c₀) →
      c ∈ addOverlap 20 l → ChunkFromSegments r.segments c := by
    intro l hl hmem
    obtain ⟨c₀, hc₀, h1, h2, h3, h4⟩ := addOverlap_core 20 l c hmem
    obtain ⟨xs, hne, hsub, hidx, hst, hen, hcf⟩ := hl c₀ hc₀
    exact ⟨xs, hne, hsub, h1.trans hidx, h2.trans hst, h3.trans hen, h4.trans hcf⟩
  cases strat with
  | fixed cs ov =>
    simp only [Strategy.chunk, fixedChunk] at hc
    split at hc
    · simp at hc
    · exact main _ (fun c₀ hc₀ => fixedLoop_wf cs ov r.text r.segments 0 c₀ hc₀) hc
  | sentence ms mc =>
    simp only [Strategy.chunk, sentenceChunk] at hc
    split at hc
    · simp at hc
    · exact main _ (fun c₀ hc₀ => sentenceLoop_wf ms mc r.segments _ [] 0 c₀ hc₀) hc
  | semantic t mn mx =>
    simp only [Strategy.chunk, semanticChunk] at hc
    split at hc
    · simp at hc
    · exact main _
        (fun c₀ hc₀ => semanticLoop_wf t mn mx r.segments r.segments 0 [] 0 []
          (by simp) (List.Sublist.refl []) c₀ hc₀) hc

/-! ## Claim theorems -/

/-- C1: for the chunk text "The meeting is at 3:00 PM with John Smith, 50
percent complete." the claim expects a NUMBER entity "50%"; the code's
percent pattern requires a word character after the percent sign (trailing
word boundary after a non-word character), so it never matches here, and the
plain number pattern reports "50" instead.  This theorem evaluates
_extract_entities at that text: the TIME and PROPER_NOUN entities of the
claim are produced with the stated offsets, but the NUMBER entity is "50"
at offsets 43-45, not "50%". -/
theorem c1_entity_extraction :
    extractEntities c1ChunkText =
      [⟨"3:00 PM".data, .TIME, 18, 25⟩, ⟨"00 PM".data, .TIME, 20, 25⟩,
       ⟨"3".data, .NUMBER, 18, 19⟩, ⟨"00".data, .NUMBER, 20, 22⟩,
       ⟨"50".data, .NUMBER, 43, 45⟩, ⟨"John Smith".data, .PROPER_NOUN, 31, 41⟩] := by
  decide

/-- C2 counterexample: SemanticChunking.chunk only tests the segment list,
never the text, so a transcript with empty text and a non-empty segment
list yields a non-empty chunk sequence, contradicting the claim that every
strategy returns the empty sequence on empty text. -/
theorem c2_counterexample :
    (Strategy.semantic 1000 200 2000).chunk rEmptyTextSeg ≠ [] := by decide

/-- C2 amended: an empty segment list yields the empty chunk sequence for
every strategy, and empty text yields the empty sequence for
FixedSizeChunking and SentenceChunking; SemanticChunking ignores the text
field, so empty text alone does not force empty output there. -/
theorem c2_empty_input_amended (r : TranscriptionResult) :
    (∀ strat : Strategy, r.segments = [] → strat.chunk r = []) ∧
    (∀ chunkSize overlap : Nat, r.text = [] → (Strategy.fixed chunkSize overlap).chunk r = []) ∧
    (∀ maxSentences maxChars : Nat, r.text = [] →
      (Strategy.sentence maxSentences maxChars).chunk r = []) := by
  refine ⟨?_, ?_, ?_⟩
  · intro strat h
    cases strat <;> simp [Strategy.chunk, fixedChunk, sentenceChunk, semanticChunk, h]
  · intro cs ov h
    simp [Strategy.chunk, fixedChunk, h]
  · intro ms mc h
    simp [Strategy.chunk, sentenceChunk, h]

/-- C2 witness: the amended theorem applied to the transcript with empty
text and empty segment list. -/
theorem c2_witness : (Strategy.semantic 1000 200 2000).chunk rEmptyAll = [] :=
  (c2_empty_input_amended rEmptyAll).1 (.semantic 1000 200 2000) rfl

/-- C6: _calculate_quality_score equals the spec formula - confidence times
a 0.7 short-chunk penalty (word_count < 10), times a 0.6 low-confidence
penalty (confidence < 0.5), times a 1.1 good-length bonus
(50 ≤ word_count ≤ 200), clamped to at most 1 - and in particular a chunk
with confidence 0.9 and word count 5 scores 0.63. -/
theorem c6_quality_score_formula :
    (∀ c : Chunk,
      calculateQualityScore c =
        min (c.confidence * (if c.word_count < 10 then 7 / 10 else 1) *
          (if c.confidence < 1 / 2 then 3 / 5 else 1) *
          (if 50 ≤ c.word_count ∧ c.word_count ≤ 200 then 11 / 10 else 1)) 1) ∧
    calculateQualityScore qualityExampleChunk = 63 / 100 := by
  constructor
  · intro c
    unfold calculateQualityScore
    split <;> split <;> split <;> ring_nf
  · norm_num [calculateQualityScore, qualityExampleChunk]

/-- C7: the FixedSizeChunking scan position strictly increases on every
iteration - the next start is the maximum of `end_pos - overlap` and
`start_pos + 1`, hence always at least one past the previous start, for
every configuration including overlap at least chunk size - which is the
termination argument of the loop. -/
theorem c7_fixed_loop_advances :
    ∀ (chunkSize overlap : Nat) (text : Chars) (startPos : Nat),
      startPos < fixedNextStart chunkSize overlap text startPos :=
  fun _ _ _ s => Nat.lt_of_lt_of_le (Nat.lt_succ_self s) (Nat.le_max_right _ _)

/-- C9: optimize is a pure function of the strategy configuration and the
transcription result - no output field reads a clock, randomness, or state
from a previous invocation - so structurally identical inputs produce
structurally identical RAGChunk sequences. -/
theorem c9_optimize_deterministic :
    ∀ (strategy : Strategy) (r1 r2 : TranscriptionResult),
      r1 = r2 → optimize strategy r1 = optimize strategy r2 := by
  intro s r1 r2 h
  rw [h]

/-- C9 witness: determinism instantiated on the concrete two-segment
transcript. -/
theorem c9_witness :
    optimize (Strategy.sentence 5 1500) rTwo = optimize (Strategy.sentence 5 1500) rTwo :=
  c9_optimize_deterministic (Strategy.sentence 5 1500) rTwo rTwo rfl

/-- C10: a chunk confidence is the mean of the member confidences that are
strictly positive; when every member confidence is at most 0 the filtered
list is empty and the result is 1, so a zero-confidence segment yields a
maximum-confidence chunk, as the concrete semantic run in the last
conjunct shows. -/
theorem c10_confidence_fallback (segs : List Segment) (h : segs ≠ []) :
    ((∀ s ∈ segs, s.confidence ≤ 0) → calcConfidence segs = 1) ∧
    ((segs.filter (fun s => 0 < s.confidence)) ≠ [] →
      calcConfidence segs =
        ((segs.filter (fun s => 0 < s.confidence)).map Segment.confidence).sum /
          ((segs.filter (fun s => 0 < s.confidence)).map Segment.confidence).length) ∧
    ((Strategy.semantic 1000 200 2000).chunk rZeroConf).map Chunk.confidence = [1] := by
  refine ⟨?_, ?_, by decide⟩
  · intro hall
    have hfil : segs.filter (fun s => 0 < s.confidence) = [] := by
      rw [List.filter_eq_nil_iff]
      intro a ha
      simpa using not_lt.2 (hall a ha)
    unfold calcConfidence
    rw [if_neg h]
    dsimp only
    rw [hfil]
    simp
  · intro hne
    unfold calcConfidence
    rw [if_neg h]
    dsimp only
    rw [if_neg (by simpa using hne)]

/-- C10 witness: the fallback case applied to the singleton zero-confidence
segment list. -/
theorem c10_witness : calcConfidence [segZero] = 1 :=
  (c10_confidence_fallback [segZero] (by decide)).1 (by decide)

/-- C3 counterexample: with two equal segment records, Python's
`list.index` returns the first position for both, so SentenceChunking
produces a chunk whose segment_indices is `[0, 0]`, which is not strictly
increasing; the claim fails as stated. -/
theorem c3_counterexample :
    ¬ (∀ c ∈ (Strategy.semantic 1000 200 2000).chunk rDup,
        List.Chain' (· < ·) c.segment_indices) := by
  intro hall
  have hmap : ((Strategy.semantic 1000 200 2000).chunk rDup).map Chunk.segment_indices
      = [[0, 0]] := by decide
  have hmem : ([0, 0] : List Nat) ∈
      ((Strategy.semantic 1000 200 2000).chunk rDup).map Chunk.segment_indices := by
    rw [hmap]
    exact List.mem_singleton.mpr rfl
  obtain ⟨c, hc, hfc⟩ := List.mem_map.1 hmem
  have hchain := hall c hc
  rw [hfc, List.chain'_cons] at hchain
  exact absurd hchain.1 (lt_irrefl 0)

/-- C3 amended: when the segment list has no duplicate records (so
`list.index` recovers true positions), every chunk of every strategy has a
non-empty strictly increasing segment_indices list with
`start_time = segments[segment_indices[0]].start` and
`end_time = segments[segment_indices[-1]].end`. -/
theorem c3_chunk_invariants_amended :
    ∀ (strat : Strategy) (r : TranscriptionResult), r.segments.Nodup →
      ∀ c ∈ strat.chunk r,
        c.segment_indices ≠ [] ∧
        List.Chain' (· < ·) c.segment_indices ∧
        (r.segments.getD (c.segment_indices.headD 0) default).start = c.start_time ∧
        (r.segments.getD (c.segment_indices.getLastD 0) default).stop = c.end_time := by
  intro strat r hnd c hc
  obtain ⟨xs, hne, hsub, hidx, hst, hen, _⟩ := strategy_chunk_wf strat r c hc
  refine ⟨?_, ?_, ?_, ?_⟩
  · rw [hidx]
    simpa using hne
  · rw [hidx]
    exact chain_lt_map_indexOf hnd hsub
  · rw [hidx, hst]
    cases xs with
    | nil => exact absurd rfl hne
    | cons x xs' =>
      simp only [List.map_cons, List.headD_cons]
      rw [getD_indexOf (hsub.subset (List.mem_cons_self x xs')) default]
  · rw [hidx, hen]
    rcases List.eq_nil_or_concat xs with rfl | ⟨L, y, rfl⟩
    · exact absurd rfl hne
    · rw [List.map_concat, List.concat_eq_append, List.concat_eq_append,
        List.getLastD_concat, List.getLastD_concat]
      rw [getD_indexOf (hsub.subset (by simp)) default]

/-- C3 witness: the amended invariants instantiated at the head chunk of the
sentence strategy on the duplicate-free two-segment transcript. -/
theorem c3_witness :
    (((Strategy.semantic 1000 5 2000).chunk rTwo).headD default).segment_indices ≠ [] ∧
    List.Chain' (· < ·)
      (((Strategy.semantic 1000 5 2000).chunk rTwo).headD default).segment_indices ∧
    (rTwo.segments.getD
        ((((Strategy.semantic 1000 5 2000).chunk rTwo).headD default).segment_indices.headD 0)
        default).start =
      (((Strategy.semantic 1000 5 2000).chunk rTwo).headD default).start_time ∧
    (rTwo.segments.getD
        ((((Strategy.semantic 1000 5 2000).chunk rTwo).headD default).segment_indices.getLastD 0)
        default).stop =
      (((Strategy.semantic 1000 5 2000).chunk rTwo).headD default).end_time :=
  c3_chunk_invariants_amended (Strategy.semantic 1000 5 2000) rTwo (by decide) _
    (headD_mem (by decide) default)

/-- Coverage of the semantic accumulation loop: every segment still pending
or not yet visited ends up in some produced chunk's index list. -/
theorem semanticLoop_coverage (t mn mx : Nat) (all : List Segment) :
    ∀ (rest : List Segment) (i : Nat) (current : List Segment) (chars : Nat)
      (s : Segment), s ∈ current ∨ s ∈ rest →
      ∃ c ∈ semanticLoop t mn mx all rest i current chars,
        List.indexOf s all ∈ c.segment_indices := by
  intro rest
  induction rest with
  | nil =>
    intro i current chars s hs
    rcases hs with hs | hs
    · have hne : current ≠ [] := by rintro rfl; simp at hs
      simp only [semanticLoop]
      rw [if_pos hne]
      refine ⟨_, List.mem_singleton.mpr rfl, ?_⟩
      simpa [createChunkFromSegments] using
        List.mem_map_of_mem (fun s => List.indexOf s all) hs
    · simp at hs
  | cons seg rest' ih =>
    intro i current chars s hs
    simp only [semanticLoop]
    split
    · rcases hs with hs | hs
      · refine ⟨_, List.mem_cons_self _ _, ?_⟩
        simpa [createChunkFromSegments] using
          List.mem_map_of_mem (fun s => List.indexOf s all) hs
      · rcases List.mem_cons.mp hs with rfl | hs'
        · obtain ⟨c, hc, hin⟩ := ih (i + 1) [s] _ s (Or.inl (List.mem_singleton.mpr rfl))
          exact ⟨c, List.mem_cons_of_mem _ hc, hin⟩
        · obtain ⟨c, hc, hin⟩ := ih (i + 1) [seg] _ s (Or.inr hs')
          exact ⟨c, List.mem_cons_of_mem _ hc, hin⟩
    · have hnext : s ∈ current ++ [seg] ∨ s ∈ rest' := by
        rcases hs with h | h
        · exact Or.inl (List.mem_append_left _ h)
        · rcases List.mem_cons.mp h with rfl | h'
          · exact Or.inl (List.mem_append_right _ (List.mem_singleton.mpr rfl))
          · exact Or.inr h'
      exact ih (i + 1) (current ++ [seg]) _ s hnext

/-- The overlap pass keeps every chunk (at its position) with its index list
unchanged. -/
theorem addOverlap_indices_surj (ow : Nat) (l : List Chunk) {c : Chunk} (hc : c ∈ l) :
    ∃ c' ∈ addOverlap ow l, c'.segment_indices = c.segment_indices := by
  unfold addOverlap
  split
  · exact ⟨c, hc, rfl⟩
  · obtain ⟨n, hn⟩ := List.mem_iff_getElem?.1 hc
    refine ⟨applyOverlap l ow n c, ?_, rfl⟩
    exact mem_mapWithIndexFrom.2 ⟨n, c, hn, by rw [Nat.zero_add]⟩

/-- C4 counterexample: SemanticChunking walks all segments, so the index of
a segment with empty text still appears in a chunk; the union of
segment_indices is not the set of non-empty-text segment indices. -/
theorem c4_counterexample :
    (∃ c ∈ (Strategy.semantic 1000 200 2000).chunk rEmptySegText,
      0 ∈ c.segment_indices) ∧
    (rEmptySegText.segments.getD 0 default).text = [] := by
  constructor
  · decide
  · decide

/-- C4 amended: for SemanticChunking on a duplicate-free segment list, the
union of segment_indices over the output chunks covers every segment index,
whether or not the segment text is empty (the fixed-size and sentence
strategies offer no such coverage guarantee, as their substring heuristics
can drop segments). -/
theorem c4_semantic_coverage_amended :
    ∀ (t mn mx : Nat) (r : TranscriptionResult), r.segments.Nodup →
      ∀ i, i < r.segments.length →
        ∃ c ∈ (Strategy.semantic t mn mx).chunk r, i ∈ c.segment_indices := by
  intro t mn mx r hnd i hi
  have hne : r.segments ≠ [] := by
    intro h
    rw [h] at hi
    simp at hi
  have hs : r.segments.getD i default ∈ r.segments := by
    rw [List.getD_eq_getElem _ _ hi]
    exact List.getElem_mem hi
  have hidx : List.indexOf (r.segments.getD i default) r.segments = i := by
    rw [List.getD_eq_getElem _ _ hi]
    exact List.indexOf_getElem hnd i hi
  obtain ⟨c, hc, hin⟩ := semanticLoop_coverage t mn mx r.segments r.segments 0 [] 0
    (r.segments.getD i default) (Or.inr hs)
  obtain ⟨c', hc', heq⟩ := addOverlap_indices_surj 20 _ hc
  refine ⟨c', ?_, ?_⟩
  · simp only [Strategy.chunk, semanticChunk]
    rw [if_neg hne]
    exact hc'
  · rw [heq, ← hidx]
    exact hin

/-- C4 witness: coverage instantiated at index 1 of the duplicate-free
two-segment transcript. -/
theorem c4_witness :
    ∃ c ∈ (Strategy.semantic 1000 200 2000).chunk rTwo, 1 ∈ c.segment_indices :=
  c4_semantic_coverage_amended 1000 200 2000 rTwo (by decide) 1 (by decide)

/-- The enrichment passes preserve each chunk's quality score (set once from
the base chunk) and confidence. -/
theorem optimize_core (strat : Strategy) (r : TranscriptionResult) :
    ∀ rc ∈ optimize strat r, ∃ c ∈ strat.chunk r,
      rc.quality_score = calculateQualityScore c ∧ rc.confidence = c.confidence := by
  intro rc hrc
  unfold optimize addContextLinks at hrc
  obtain ⟨i, a, hget, rfl⟩ := mem_mapWithIndexFrom.1 hrc
  have ha : a ∈ mapWithIndexFrom (fun i c => enhanceChunk c i r) 0 (strat.chunk r) :=
    List.getElem?_mem hget
  obtain ⟨j, c, hc, rfl⟩ := mem_mapWithIndexFrom.1 ha
  exact ⟨c, List.getElem?_mem hc, rfl, rfl⟩

/-- C5: every RAGChunk produced by optimize has a quality score in [0, 1],
for any strategy and any input confidences: the chunk confidence is either
1 or a mean of strictly positive values, hence non-negative, the penalty
and bonus factors are non-negative, and the final min caps the score at 1. -/
theorem c5_quality_score_bounds :
    ∀ (strat : Strategy) (r : TranscriptionResult),
      ∀ rc ∈ optimize strat r, 0 ≤ rc.quality_score ∧ rc.quality_score ≤ 1 := by
  intro strat r rc hrc
  obtain ⟨c, hc, hq, _⟩ := optimize_core strat r rc hrc
  obtain ⟨xs, _, _, _, _, _, hconf⟩ := strategy_chunk_wf strat r c hc
  have h0 : 0 ≤ c.confidence := hconf ▸ calcConfidence_nonneg xs
  rw [hq]
  exact calculateQualityScore_bounds h0

/-- C5 witness: the bounds instantiated at the head RAGChunk of the sentence
strategy on the two-segment transcript. -/
theorem c5_witness :
    0 ≤ ((optimize (Strategy.semantic 1000 5 2000) rTwo).headD default).quality_score ∧
    ((optimize (Strategy.semantic 1000 5 2000) rTwo).headD default).quality_score ≤ 1 :=
  c5_quality_score_bounds (Strategy.semantic 1000 5 2000) rTwo _
    (headD_mem (by decide) default)

theorem addContextLinks_length (l : List RAGChunk) :
    (addContextLinks l).length = l.length :=
  mapWithIndexFrom_length _ _ _

theorem addContextLinks_getD (l : List RAGChunk) (i : Nat) (h : i < l.length)
    (d : RAGChunk) : (addContextLinks l).getD i d = applyContext l i (l.getD i d) := by
  unfold addContextLinks
  rw [List.getD_eq_getElem?_getD, mapWithIndexFrom_getElem?, List.getElem?_eq_getElem h,
    List.getD_eq_getElem _ _ h]
  simp

theorem mapWithIndexFrom_getD {f : Nat → α → β} {l : List α} {i : Nat}
    (h : i < l.length) (d : β) (d' : α) :
    (mapWithIndexFrom f 0 l).getD i d = f i (l.getD i d') := by
  rw [List.getD_eq_getElem?_getD, mapWithIndexFrom_getElem?, List.getElem?_eq_getElem h,
    List.getD_eq_getElem _ _ h]
  simp

/-- C8: in the optimize output, the chunk at a position after the first has
context_before equal to the last 20 whitespace words of the previous
chunk's text joined by single spaces, the chunk at a position before the
last has context_after equal to the first 20 words of the next chunk's
text, and the boundary chunks keep the respective field absent. -/
theorem c8_context_links :
    ∀ (strat : Strategy) (r : TranscriptionResult) (i : Nat),
      i < (optimize strat r).length →
      ((optimize strat r).getD i default).context_before =
        (if 0 < i then
          some (joinSp (lastN 20 (splitWs ((optimize strat r).getD (i - 1) default).text)))
         else none) ∧
      ((optimize strat r).getD i default).context_after =
        (if i < (optimize strat r).length - 1 then
          some (joinSp ((splitWs ((optimize strat r).getD (i + 1) default).text).take 20))
         else none) := by
  intro strat r i hi
  have hout : optimize strat r =
      addContextLinks (mapWithIndexFrom (fun i c => enhanceChunk c i r) 0 (strat.chunk r)) :=
    rfl
  set el := mapWithIndexFrom (fun i c => enhanceChunk c i r) 0 (strat.chunk r) with hel
  have hlen : (optimize strat r).length = el.length := by
    rw [hout, addContextLinks_length]
  have hi' : i < el.length := hlen ▸ hi
  have hbase : i < (strat.chunk r).length := by
    have := mapWithIndexFrom_length (fun i c => enhanceChunk c i r) 0 (strat.chunk r)
    rw [hel] at hi'
    omega
  have hgi : (optimize strat r).getD i default = applyContext el i (el.getD i default) := by
    rw [hout]
    exact addContextLinks_getD el i hi' default
  constructor
  · rw [hgi]
    show (if 0 < i then
        some (joinSp (lastN 20 (splitWs (el.getD (i - 1) default).text)))
      else (el.getD i default).context_before) = _
    by_cases h0 : 0 < i
    · rw [if_pos h0, if_pos h0]
      have hi1 : i - 1 < el.length := by omega
      have hprev : (optimize strat r).getD (i - 1) default =
          applyContext el (i - 1) (el.getD (i - 1) default) := by
        rw [hout]
        exact addContextLinks_getD el (i - 1) hi1 default
      rw [hprev]
      rfl
    · rw [if_neg h0, if_neg h0]
      rw [hel, mapWithIndexFrom_getD hbase default default]
      rfl
  · rw [hgi]
    show (if i < el.length - 1 then
        some (joinSp ((splitWs (el.getD (i + 1) default).text).take 20))
      else (el.getD i default).context_after) = _
    rw [hlen]
    by_cases h1 : i < el.length - 1
    · rw [if_pos h1, if_pos h1]
      have hi1 : i + 1 < el.length := by omega
      have hnext : (optimize strat r).getD (i + 1) default =
          applyContext el (i + 1) (el.getD (i + 1) default) := by
        rw [hout]
        exact addContextLinks_getD el (i + 1) hi1 default
      rw [hnext]
      rfl
    · rw [if_neg h1, if_neg h1]
      rw [hel, mapWithIndexFrom_getD hbase default default]
      rfl

/-- C8 witness: the context-link shape instantiated at position 1 of a
two-chunk sentence-strategy run. -/
theorem c8_witness :
    ((optimize (Strategy.semantic 1000 5 2000) rTwo).getD 1 default).context_before =
      (if 0 < 1 then
        some (joinSp (lastN 20
          (splitWs ((optimize (Strategy.semantic 1000 5 2000) rTwo).getD 0 default).text)))
       else none) ∧
    ((optimize (Strategy.semantic 1000 5 2000) rTwo).getD 1 default).context_after =
      (if 1 < (optimize (Strategy.semantic 1000 5 2000) rTwo).length - 1 then
        some (joinSp ((splitWs
          ((optimize (Strategy.semantic 1000 5 2000) rTwo).getD 2 default).text).take 20))
       else none) :=
  c8_context_links (Strategy.semantic 1000 5 2000) rTwo 1 (by decide)

end DirectTranscriber
